import Mathlib

/-!
Verification of the water-boiling discrete-event world model.

This file gives a shallow embedding of the repository's three Python
source files:

* `water_boiling.py` — the discrete-event engine `Env` (namedtuple
  `State`, `CausalProcess` instances with `precondition`/`effect`,
  `small_step`, `big_step`) and the `bfs_planner`;
* `water_boiling_processes.py` — the second generation of causal
  processes (`condition_at_start`, `condition_overall`, `effect`),
  including the sustained-trigger `OverfillPot` and the `Noop` action;
* `water_boiling_plan.py` — `get_possible_actions` used by the A*
  planner to prune the branching factor.

Modelling conventions:

* Python's global pseudo-random source is modelled as a stream
  `rand : Nat → Nat` carried inside the environment together with a
  cursor `randPos`; the stream entries are the successive values
  returned by `DelayDistribution.sample` calls that hit the random
  source (a `GaussianDelay` returns the accepted draw of its rejection
  loop, so strict positivity of the draws is stated as a hypothesis
  where a claim needs it; `ConstantDelay` consumes nothing).
* `deepcopy` is value copying, so cloning is the identity on the pure
  `Env` value.
* The potentially non-terminating `while` loops (`big_step`, the BFS
  queue loop) take a fuel argument and return `none` when the fuel
  runs out, modelling divergence.
* Python code that raises (`list.index` with no match) is modelled
  with an `Option` result, `none` standing for the exception.
-/

/-- `State` namedtuple of `water_boiling.py` (and `AbstractState` of
`water_boiling_processes.py`): equality is structural over all fields,
including the transient `action` field. -/
structure State where
  boiling : Bool
  pot_location : String
  stove_on : Bool
  faucet_on : Bool
  pot_filled : Bool
  water_spilled : Bool
  action : Option String
deriving DecidableEq, Repr

/-- A well-typed `do(variable)=value` pair: `state._replace(**{variable: value})`
for each of the seven fields of `State`. -/
inductive FieldVal where
  | boiling (b : Bool)
  | pot_location (v : String)
  | stove_on (b : Bool)
  | faucet_on (b : Bool)
  | pot_filled (b : Bool)
  | water_spilled (b : Bool)
  | action (v : Option String)
deriving DecidableEq, Repr

/-- `state._replace(**{variable: value})` — replace the named field. -/
def State.setField (s : State) : FieldVal → State
  | FieldVal.boiling b => { s with boiling := b }
  | FieldVal.pot_location v => { s with pot_location := v }
  | FieldVal.stove_on b => { s with stove_on := b }
  | FieldVal.faucet_on b => { s with faucet_on := b }
  | FieldVal.pot_filled b => { s with pot_filled := b }
  | FieldVal.water_spilled b => { s with water_spilled := b }
  | FieldVal.action v => { s with action := v }

/-- The two delay-distribution classes (`ConstantDelay`, `GaussianDelay`). -/
inductive DelayDist where
  | constant (d : Nat)
  | gaussian (mean std : Nat)
deriving DecidableEq, Repr

/-- `sample()`: a `ConstantDelay` is pure; a `GaussianDelay` consumes the
next accepted draw from the random stream and advances the cursor.
Returns the sampled delay plus the new cursor. -/
def DelayDist.sample : DelayDist → (Nat → Nat) → Nat → Nat × Nat
  | DelayDist.constant d, _, pos => (d, pos)
  | DelayDist.gaussian _ _, stream, pos => (stream pos, pos + 1)

/-- A `CausalProcess` of `water_boiling.py`: `precondition(history)` and
`effect(state, history_slice)`, plus a name and an owned delay
distribution. -/
structure Process where
  name : String
  delay_distribution : DelayDist
  precondition : List State → Bool
  effect : State → List State → State

/-- The `scheduled_events` dict: insertion-ordered association list from
an absolute tick to the list of `(process, origin tick)` pairs, each
list in insertion order. -/
abbrev Sched := List (Nat × List (Process × Nat))

/-- `t in scheduled_events` / `scheduled_events[t]`. -/
def schedLookup : Sched → Nat → Option (List (Process × Nat))
  | [], _ => none
  | (k, evs) :: rest, t => if k = t then some evs else schedLookup rest t

/-- `scheduled_events.setdefault(k, []).append(ev)` : append to an existing
key's list, else add the key at the end (dict insertion order). -/
def schedInsert : Sched → Nat → Process × Nat → Sched
  | [], k, ev => [(k, [ev])]
  | (k', evs) :: rest, k, ev =>
    if k' = k then (k', evs ++ [ev]) :: rest
    else (k', evs) :: schedInsert rest k ev

/-- `del scheduled_events[t]` (keys are unique, so filtering is deletion). -/
def schedErase (sched : Sched) (t : Nat) : Sched :=
  sched.filter (fun e => !(e.1 == t))

/-- The common edge-trigger pattern of every `precondition` /
`condition_at_start` in the sources except `OverfillPot` of
`water_boiling_processes.py`:
`check(history[-1]) and (len(history) == 1 or not check(history[-2]))`.
(Python raises `IndexError` on an empty history; the engine's history is
never empty, and the empty case is modelled as `false`.) -/
def edgeTrigger (check : State → Bool) (h : List State) : Bool :=
  match h.reverse with
  | [] => false
  | [x] => check x
  | x :: y :: _ => check x && !check y

/-- The `Env` class of `water_boiling.py` (called `WorldModel` in the
spec), extended with the modelled random stream and its cursor. -/
structure Env where
  processes : List Process
  state : State
  history : List State
  scheduled_events : Sched
  t : Nat
  rand : Nat → Nat
  randPos : Nat

/-- `Env.__init__(processes, initial_state)`. -/
def Env.init (processes : List Process) (initial_state : State)
    (stream : Nat → Nat) : Env :=
  { processes := processes
    state := initial_state
    history := [initial_state]
    scheduled_events := []
    t := 0
    rand := stream
    randPos := 0 }

/-- One step of the scheduling loop at the end of `small_step`: if the
process's precondition holds on the just-extended history, sample a
delay and insert `(process, t)` at key `t + delay`. -/
def scheduleStep (t : Nat) (stream : Nat → Nat) (newHist : List State)
    (acc : Sched × Nat) (p : Process) : Sched × Nat :=
  if p.precondition newHist then
    let sampled := p.delay_distribution.sample stream acc.2
    (schedInsert acc.1 (t + sampled.1) (p, t), sampled.2)
  else acc

/-- `Env.small_step(action)`: apply the action to the `action`-carrying
state, fire the effects scheduled for the current tick (in insertion
order, each over `history[start_time + 1:]`) and delete the tick's
entry, append the resulting state to history, schedule every newly
triggered process, and advance the tick. -/
def Env.small_step (w : Env) (a : Option FieldVal) : Env :=
  let s1 : State := match a with
    | none => w.state
    | some fv => w.state.setField fv
  let s2 : State := match schedLookup w.scheduled_events w.t with
    | some evs => evs.foldl (fun s ev => ev.1.effect s (w.history.drop (ev.2 + 1))) s1
    | none => s1
  let sched1 : Sched := match schedLookup w.scheduled_events w.t with
    | some _ => schedErase w.scheduled_events w.t
    | none => w.scheduled_events
  let hist1 : List State := w.history ++ [s2]
  let folded := w.processes.foldl (scheduleStep w.t w.rand hist1) (sched1, w.randPos)
  { processes := w.processes
    state := s2
    history := hist1
    scheduled_events := folded.1
    t := w.t + 1
    rand := w.rand
    randPos := folded.2 }

/-- The body of `Env.big_step`'s `while` loop, with fuel. `ref` is
`initial_state` of the Python code: the reference state against which
change is detected; it is reset to the current state right after the
action is consumed. Returns `none` when the fuel runs out (the Python
loop would still be running). -/
def Env.bigStepLoop : Nat → Env → State → Option FieldVal → Option Env
  | 0, _, _, _ => none
  | n + 1, w, ref, a =>
    if w.state = ref then
      let w1 := w.small_step a
      let ref1 := if a.isSome then w1.state else ref
      if w1.state = ref1 ∧ w1.scheduled_events.isEmpty then some w1
      else Env.bigStepLoop n w1 ref1 none
    else some w

/-- `Env.big_step(action)`: the returned environment's `state` field is
the Python return value. -/
def Env.big_step (fuel : Nat) (w : Env) (a : Option FieldVal) : Option Env :=
  Env.bigStepLoop fuel w w.state a

namespace WaterBoiling

/-- `ToggleFaucet.precondition`'s inner `check`. -/
def toggleFaucetCheck (s : State) : Bool := s.action == some "toggle_faucet"

/-- `ToggleStove.precondition`'s inner `check`. -/
def toggleStoveCheck (s : State) : Bool := s.action == some "toggle_stove"

/-- `MoveToFaucet.precondition`'s inner `check`. -/
def moveToFaucetCheck (s : State) : Bool := s.action == some "move_to_faucet"

/-- `MoveToStove.precondition`'s inner `check`. -/
def moveToStoveCheck (s : State) : Bool := s.action == some "move_to_stove"

/-- `FillPot.precondition`'s inner `check`. -/
def fillPotCheck (s : State) : Bool :=
  s.pot_location == "faucet" && s.faucet_on && !s.pot_filled

/-- `FillPot.effect`'s continuity check over the history slice. -/
def fillPotOverall (s : State) : Bool := s.pot_location == "faucet" && s.faucet_on

/-- `OverfillPot.precondition`'s inner `check` (water_boiling.py version). -/
def overfillPotCheck (s : State) : Bool :=
  s.pot_location == "faucet" && s.faucet_on && s.pot_filled && !s.water_spilled

/-- `OverfillPot.effect`'s continuity check over the history slice. -/
def overfillPotOverall (s : State) : Bool :=
  s.pot_location == "faucet" && s.faucet_on && s.pot_filled

/-- `Spill.precondition`'s inner `check`. -/
def spillCheck (s : State) : Bool :=
  !(s.pot_location == "faucet") && s.faucet_on && !s.water_spilled

/-- `Boil.precondition`'s inner `check`, which is also `Boil.effect`'s
continuity check. -/
def boilCheck (s : State) : Bool :=
  s.pot_location == "stove" && s.stove_on && s.pot_filled

/-- `class ToggleFaucet` of `water_boiling.py`. -/
def ToggleFaucet : Process :=
  { name := "ToggleFaucet"
    delay_distribution := DelayDist.gaussian 5 2
    precondition := edgeTrigger toggleFaucetCheck
    effect := fun s _ => { s with faucet_on := !s.faucet_on, action := none } }

/-- `class ToggleStove` of `water_boiling.py`. -/
def ToggleStove : Process :=
  { name := "ToggleStove"
    delay_distribution := DelayDist.gaussian 5 2
    precondition := edgeTrigger toggleStoveCheck
    effect := fun s _ => { s with stove_on := !s.stove_on, action := none } }

/-- `class MoveToFaucet` of `water_boiling.py`. -/
def MoveToFaucet : Process :=
  { name := "MoveToFaucet"
    delay_distribution := DelayDist.gaussian 5 2
    precondition := edgeTrigger moveToFaucetCheck
    effect := fun s _ => { s with pot_location := "faucet", action := none } }

/-- `class MoveToStove` of `water_boiling.py`. -/
def MoveToStove : Process :=
  { name := "MoveToStove"
    delay_distribution := DelayDist.gaussian 5 2
    precondition := edgeTrigger moveToStoveCheck
    effect := fun s _ => { s with pot_location := "stove", action := none } }

/-- `class FillPot` of `water_boiling.py`: the effect re-validates that
the pot stayed on the faucet with the water running over the whole
slice, and is a no-op otherwise. -/
def FillPot : Process :=
  { name := "FillPot"
    delay_distribution := DelayDist.gaussian 25 2
    precondition := edgeTrigger fillPotCheck
    effect := fun s slice =>
      if slice.all fillPotOverall then { s with pot_filled := true } else s }

/-- `class OverfillPot` of `water_boiling.py` (the edge-triggered one). -/
def OverfillPot : Process :=
  { name := "OverfillPot"
    delay_distribution := DelayDist.gaussian 10 1
    precondition := edgeTrigger overfillPotCheck
    effect := fun s slice =>
      if slice.all overfillPotOverall then { s with water_spilled := true } else s }

/-- `class Spill` of `water_boiling.py`. -/
def Spill : Process :=
  { name := "Spill"
    delay_distribution := DelayDist.constant 1
    precondition := edgeTrigger spillCheck
    effect := fun s _ => { s with water_spilled := true } }

/-- `class Boil` of `water_boiling.py`. -/
def Boil : Process :=
  { name := "Boil"
    delay_distribution := DelayDist.gaussian 30 1
    precondition := edgeTrigger boilCheck
    effect := fun s slice =>
      if slice.all boilCheck then { s with boiling := true } else s }

/-- The process list passed to `Env(...)` in `water_boiling.py`. -/
def env_processes : List Process :=
  [ToggleFaucet, ToggleStove, MoveToFaucet, MoveToStove,
   FillPot, OverfillPot, Boil, Spill]

/-- The initial state of the `water_boiling.py` demo environment. -/
def initial_state : State :=
  { boiling := false
    pot_location := "table"
    stove_on := false
    faucet_on := false
    pot_filled := false
    water_spilled := false
    action := none }

end WaterBoiling

namespace SpecPhases

/-!
The five phases of `small_step` exactly as §4.3 of the specification
lists them, each as its own transformation of the environment; claim C1
states that the transliterated `Env.small_step` is their composition.
-/

/-- Spec step (1): if an action is supplied, set that field of the
current state to the value. -/
def applyActionPhase (w : Env) (a : Option FieldVal) : Env :=
  match a with
  | none => w
  | some fv => { w with state := w.state.setField fv }

/-- Spec step (2): if the current tick has scheduled events, apply each
matched process's effect to the current state in schedule-insertion
order, then remove the tick's entry from the schedule table. -/
def fireDuePhase (w : Env) : Env :=
  match schedLookup w.scheduled_events w.t with
  | none => w
  | some evs =>
    { w with
      state := evs.foldl (fun s ev => ev.1.effect s (w.history.drop (ev.2 + 1))) w.state
      scheduled_events := schedErase w.scheduled_events w.t }

/-- Spec step (3): append the resulting state to history. -/
def appendHistoryPhase (w : Env) : Env :=
  { w with history := w.history ++ [w.state] }

/-- Spec step (4): for every process whose start condition holds on the
just-extended history, sample a delay and insert `(process, t)` into
the schedule table under key `t + delay`. -/
def scheduleNewPhase (w : Env) : Env :=
  { w with
    scheduled_events :=
      (w.processes.foldl (scheduleStep w.t w.rand w.history) (w.scheduled_events, w.randPos)).1
    randPos :=
      (w.processes.foldl (scheduleStep w.t w.rand w.history) (w.scheduled_events, w.randPos)).2 }

/-- Spec step (5): increment the tick counter. -/
def incrementPhase (w : Env) : Env := { w with t := w.t + 1 }

/-- The composition of the five phases, in the order the spec states
them. -/
def specSmallStep (w : Env) (a : Option FieldVal) : Env :=
  incrementPhase (scheduleNewPhase (appendHistoryPhase (fireDuePhase (applyActionPhase w a))))

end SpecPhases

namespace Processes

/-- A `CausalProcess` of `water_boiling_processes.py`:
`condition_at_start(history)`, `condition_overall(history_slice)`
(default: always true), `condition_at_end(state)` (default: always
true), and `effect(state)`. -/
structure ProcessP where
  name : String
  delay_distribution : DelayDist
  condition_at_start : List State → Bool
  condition_overall : List State → Bool := fun _ => true
  condition_at_end : State → Bool := fun _ => true
  effect : State → State

/-- `Noop.condition_at_start`'s inner `check`. -/
def noopCheck (s : State) : Bool := s.action == some "noop"

/-- `class Noop` of `water_boiling_processes.py`. -/
def Noop : ProcessP :=
  { name := "Noop"
    delay_distribution := DelayDist.gaussian 20 1
    condition_at_start := edgeTrigger noopCheck
    effect := fun s => { s with action := none } }

/-- `class ToggleFaucet` of `water_boiling_processes.py`. -/
def ToggleFaucet : ProcessP :=
  { name := "ToggleFaucet"
    delay_distribution := DelayDist.gaussian 5 2
    condition_at_start := edgeTrigger WaterBoiling.toggleFaucetCheck
    effect := fun s => { s with faucet_on := !s.faucet_on, action := none } }

/-- `class ToggleStove` of `water_boiling_processes.py`
(`stove_toggle_duration = 5`). -/
def ToggleStove : ProcessP :=
  { name := "ToggleStove"
    delay_distribution := DelayDist.gaussian 5 2
    condition_at_start := edgeTrigger WaterBoiling.toggleStoveCheck
    effect := fun s => { s with stove_on := !s.stove_on, action := none } }

/-- `class MoveToFaucet` of `water_boiling_processes.py`. -/
def MoveToFaucet : ProcessP :=
  { name := "MoveToFaucet"
    delay_distribution := DelayDist.gaussian 5 2
    condition_at_start := edgeTrigger WaterBoiling.moveToFaucetCheck
    effect := fun s => { s with pot_location := "faucet", action := none } }

/-- `class MoveToStove` of `water_boiling_processes.py`. -/
def MoveToStove : ProcessP :=
  { name := "MoveToStove"
    delay_distribution := DelayDist.gaussian 5 2
    condition_at_start := edgeTrigger WaterBoiling.moveToStoveCheck
    effect := fun s => { s with pot_location := "stove", action := none } }

/-- `OverfillPot.condition_at_start`'s inner `check`
(`water_boiling_processes.py`). -/
def overfill_check (s : State) : Bool :=
  s.pot_location == "faucet" && s.faucet_on && s.pot_filled && !s.water_spilled

/-- Python `list.index(False)`: index of the first `false`, `none` when
there is none (Python raises `ValueError`). -/
def listIndexFalse : List Bool → Option Nat
  | [] => none
  | b :: rest => if b = false then some 0 else (listIndexFalse rest).map (· + 1)

/-- `OverfillPot.condition_at_start` of `water_boiling_processes.py`:
the sustained-trigger form. `j` is the `random.randint(0, 10)` jitter
draw. `[check(s) for s in history[::-1]].index(False)` is the length of
the longest suffix of the history on which `check` holds; the condition
is that this exceeds `10 + j`. `none` models the `ValueError` raised
when every entry passes the check. -/
def OverfillPot_condition_at_start (j : Nat) (h : List State) : Option Bool :=
  match listIndexFalse (h.reverse.map overfill_check) with
  | none => none
  | some suffix_passing_check => some (decide (10 + j < suffix_passing_check))

/-- `OverfillPot.effect` of `water_boiling_processes.py`. -/
def OverfillPot_effect (s : State) : State := { s with water_spilled := true }

end Processes

namespace Plan

/-- The candidate action list of `get_possible_actions`. -/
def astar_actions : List (String × String) :=
  [("action", "noop"), ("action", "move_to_faucet"), ("action", "move_to_stove"),
   ("action", "toggle_faucet"), ("action", "toggle_stove")]

/-- `history_copy[-1] = history_copy[-1]._replace(action=value)`: replace
the last entry's `action` field (Python raises `IndexError` on an empty
history; histories are never empty). -/
def setLastAction (h : List State) (v : String) : List State :=
  match h.getLast? with
  | none => []
  | some s => h.dropLast ++ [{ s with action := some v }]

/-- The `action_to_process` dict of `water_boiling_plan.py`, defined on
the five action names that occur as keys (Python raises `KeyError`
otherwise). -/
def action_to_process (v : String) : Processes.ProcessP :=
  if v = "noop" then Processes.Noop
  else if v = "move_to_faucet" then Processes.MoveToFaucet
  else if v = "move_to_stove" then Processes.MoveToStove
  else if v = "toggle_faucet" then Processes.ToggleFaucet
  else Processes.ToggleStove

/-- `get_possible_actions(history)`: yield, in order, each action whose
process's `condition_at_start` holds on a copy of the history whose
last entry's `action` field is set to that action's value. -/
def get_possible_actions (h : List State) : List (String × String) :=
  astar_actions.filter
    (fun a => (action_to_process a.2).condition_at_start (setLastAction h a.2))

end Plan

/-- An action argument of `big_step`: `None` (wait) or a
`(variable, value)` pair. -/
abbrev Act := Option FieldVal

/-- A BFS queue entry: `(env_state, plan_so_far)`. -/
abbrev BfsNode := Env × List Act

/-- The action list of `bfs_planner` (wait first, then the four
controllable actions, in source order). -/
def bfs_actions : List Act :=
  [none,
   some (FieldVal.action (some "move_to_faucet")),
   some (FieldVal.action (some "move_to_stove")),
   some (FieldVal.action (some "toggle_faucet")),
   some (FieldVal.action (some "toggle_stove"))]

/-- The expansion loop of `bfs_planner`: for each action, clone the
node's environment, roll it forward one `big_step`, and produce the
child `(next_env, plan + [action])`, in action order. `none` when some
`big_step` diverges (the Python loop would hang there). -/
def expandAll (bf : Nat) (w : Env) (plan : List Act) : List Act → Option (List BfsNode)
  | [] => some []
  | a :: rest =>
    match Env.big_step bf w a, expandAll bf w plan rest with
    | some w1, some ch => some ((w1, plan ++ [a]) :: ch)
    | _, _ => none

/-- The `while queue:` loop of `bfs_planner`, with fuel: pop the first
node, return its plan if its state satisfies the goal, otherwise append
its expansions to the back of the queue. `some none` is Python's
`return None` (empty queue); the outer `none` is exhausted fuel or a
diverging `big_step`. -/
def bfsLoop (goal : State → Bool) (bf : Nat) : Nat → List BfsNode → Option (Option (List Act))
  | _, [] => some none
  | 0, _ :: _ => none
  | n + 1, x :: rest =>
    if goal x.1.state then some (some x.2)
    else
      match expandAll bf x.1 x.2 bfs_actions with
      | some ch => bfsLoop goal bf n (rest ++ ch)
      | none => none

/-- `bfs_planner(env, goal_predicate)` — the queue starts with
`(deepcopy(env), [])`. -/
def bfs_planner (goal : State → Bool) (bf : Nat) (fuel : Nat) (w : Env) :
    Option (Option (List Act)) :=
  bfsLoop goal bf fuel [(w, [])]

/-- Run a sequence of `big_step` actions from an environment (the
transition function the planner searches over). -/
def runPlan (bf : Nat) (w : Env) : List Act → Option Env
  | [] => some w
  | a :: rest =>
    match Env.big_step bf w a with
    | some w1 => runPlan bf w1 rest
    | none => none

/-- An action sequence reaches the goal when running it terminates and
its final state satisfies the goal predicate. -/
def reachesGoal (goal : State → Bool) (bf : Nat) (w : Env) (q : List Act) : Bool :=
  match runPlan bf w q with
  | some w1 => goal w1.state
  | none => false

/-- `deepcopy(env)`: on pure values, cloning is copying. -/
def clone (w : Env) : Env := w

/-- One engine call applied to a model: a `small_step` or a (fueled)
`big_step`. -/
inductive StepCall where
  | small (a : Option FieldVal)
  | big (fuel : Nat) (a : Option FieldVal)

/-- Apply a sequence of stepping calls to an environment; `none` when
some `big_step` diverges. -/
def runSteps : Env → List StepCall → Option Env
  | w, [] => some w
  | w, StepCall.small a :: rest => runSteps (w.small_step a) rest
  | w, StepCall.big f a :: rest =>
    match Env.big_step f w a with
    | some w1 => runSteps w1 rest
    | none => none

namespace Fixtures

/-- A state with the pot on the (cold, off) stove and no pending action. -/
def sStove : State :=
  { boiling := false, pot_location := "stove", stove_on := false, faucet_on := false,
    pot_filled := false, water_spilled := false, action := none }

/-- The all-false table state of the demo environment. -/
def sTable : State := WaterBoiling.initial_state

/-- A state satisfying `OverfillPot`'s sustained check: pot filled under
the running faucet, nothing spilled yet. -/
def sFull : State :=
  { boiling := false, pot_location := "faucet", stove_on := false, faucet_on := true,
    pot_filled := true, water_spilled := false, action := none }

/-- A resting state whose `action` field is (still) `move_to_faucet`. -/
def sMv : State := { sTable with action := some "move_to_faucet" }

/-- A state whose `action` field is `toggle_faucet`. -/
def sTf : State := { sTable with action := some "toggle_faucet" }

/-- A `water_boiling.py`-interface wrapper of `Noop` from
`water_boiling_processes.py` (its effect ignores the history slice):
used to build a counterexample `WorldModel`, which the claims quantify
over. -/
def NoopWB : Process :=
  { name := "Noop"
    delay_distribution := DelayDist.gaussian 20 1
    precondition := edgeTrigger Processes.noopCheck
    effect := fun s _ => { s with action := none } }

/-- An empty world model: no processes, empty schedule. -/
def wEmpty : Env := Env.init [] sTable (fun _ => 1)

/-- A world model with a pending `FillPot` effect whose continuity
condition already fails (the pot sits on the stove): consuming the
event is a no-op. -/
def cxFill : Env :=
  { processes := [WaterBoiling.FillPot]
    state := sStove
    history := [sStove, sStove]
    scheduled_events := [(1, [(WaterBoiling.FillPot, 0)])]
    t := 1
    rand := fun _ => 1
    randPos := 0 }

/-- A world model with a `Noop` process and an unrelated event pending
far in the future: a `noop` action's causal chain restores the pre-call
state while that event is still pending. -/
def cyNoop : Env :=
  { processes := [NoopWB]
    state := sTable
    history := [sTable]
    scheduled_events := [(100, [(NoopWB, 0)])]
    t := 0
    rand := fun _ => 5
    randPos := 0 }

/-- A search node of the demo environment whose last two history entries
both carry the lingering action value `move_to_faucet`. -/
def envMv : Env :=
  { processes := WaterBoiling.env_processes
    state := sMv
    history := [sMv, sMv]
    scheduled_events := []
    t := 1
    rand := fun _ => 3
    randPos := 0 }

/-- A goal predicate that accepts every state. -/
def goalTrue : State → Bool := fun _ => true

end Fixtures

/-- The schedule-table key invariant of the spec: every key in the table
is at or after the owning model's current tick. -/
def schedKeysGE (w : Env) : Prop := ∀ e ∈ w.scheduled_events, w.t ≤ e.1

/-!  Helper lemmas. -/

lemma edgeTrigger_concat (check : State → Bool) (l : List State) (b s : State) :
    edgeTrigger check (l ++ [b] ++ [s]) = (check s && !check b) := by
  unfold edgeTrigger
  rw [show (l ++ [b] ++ [s]).reverse = s :: b :: l.reverse by simp]

lemma edge_once (check : State → Bool) (h : List State) (x s : State)
    (hl : h.getLast? = some x) (hx : check x = true) (hs : check s = true) :
    edgeTrigger check (h ++ [s]) = false := by
  rcases List.eq_nil_or_concat h with rfl | ⟨l, b, rfl⟩
  · simp at hl
  · rw [List.concat_eq_append] at hl ⊢
    rw [List.getLast?_concat] at hl
    obtain rfl : b = x := by injection hl
    rw [edgeTrigger_concat, hs, hx]
    rfl

lemma listIndexFalse_eq_none_iff (l : List Bool) :
    Processes.listIndexFalse l = none ↔ ∀ b ∈ l, b = true := by
  induction l with
  | nil => simp [Processes.listIndexFalse]
  | cons b rest ih =>
    cases b with
    | false => simp [Processes.listIndexFalse]
    | true =>
      simp only [Processes.listIndexFalse, if_neg (by decide : ¬(true = false))]
      cases hrec : Processes.listIndexFalse rest with
      | none =>
        simp only [Option.map_none', true_iff, List.mem_cons]
        intro b hb
        rcases hb with rfl | hb
        · rfl
        · exact ih.mp hrec b hb
      | some i =>
        simp only [Option.map_some']
        constructor
        · intro hcontra
          cases hcontra
        · intro hall
          exfalso
          have hnone : Processes.listIndexFalse rest = none :=
            ih.mpr (fun b hb => hall b (List.mem_cons_of_mem _ hb))
          rw [hnone] at hrec
          cases hrec

lemma bigStepLoop_none_unchanged :
    ∀ (fuel : Nat) (w : Env) (ref : State) (w1 : Env),
    Env.bigStepLoop fuel w ref none = some w1 → w1.state = ref →
    w1.scheduled_events = [] := by
  intro fuel
  induction fuel with
  | zero => intro w ref w1 h _; simp [Env.bigStepLoop] at h
  | succ n ih =>
    intro w ref w1 h hs
    simp only [Env.bigStepLoop, Option.isSome_none] at h
    by_cases hw : w.state = ref
    · rw [if_pos hw] at h
      simp only [Bool.false_eq_true, if_false] at h
      by_cases hg : (w.small_step none).state = ref ∧ (w.small_step none).scheduled_events.isEmpty = true
      · rw [if_pos hg] at h
        obtain rfl : w.small_step none = w1 := by injection h
        exact List.isEmpty_iff.mp hg.2
      · rw [if_neg hg] at h
        exact ih (w.small_step none) ref w1 h hs
    · rw [if_neg hw] at h
      obtain rfl : w = w1 := by injection h
      exact absurd hs hw

lemma bigStepLoop_processes :
    ∀ (fuel : Nat) (w : Env) (ref : State) (a : Option FieldVal) (w1 : Env),
    Env.bigStepLoop fuel w ref a = some w1 → w1.processes = w.processes := by
  intro fuel
  induction fuel with
  | zero => intro w ref a w1 h; simp [Env.bigStepLoop] at h
  | succ n ih =>
    intro w ref a w1 h
    simp only [Env.bigStepLoop] at h
    by_cases hw : w.state = ref
    · rw [if_pos hw] at h
      by_cases hg : (w.small_step a).state = (if a.isSome then (w.small_step a).state else ref)
          ∧ (w.small_step a).scheduled_events.isEmpty = true
      · rw [if_pos hg] at h
        obtain rfl : w.small_step a = w1 := by injection h
        rfl
      · rw [if_neg hg] at h
        exact (ih _ _ _ _ h).trans rfl
    · rw [if_neg hw] at h
      obtain rfl : w = w1 := by injection h
      rfl

lemma runSteps_processes :
    ∀ (steps : List StepCall) (w w1 : Env),
    runSteps w steps = some w1 → w1.processes = w.processes := by
  intro steps
  induction steps with
  | nil =>
    intro w w1 h
    obtain rfl : w = w1 := by injection h
    rfl
  | cons c rest ih =>
    intro w w1 h
    cases c with
    | small a =>
      simp only [runSteps] at h
      exact (ih _ _ h).trans rfl
    | big f a =>
      simp only [runSteps] at h
      cases hb : Env.big_step f w a with
      | none => rw [hb] at h; cases h
      | some w2 =>
        rw [hb] at h
        exact (ih _ _ h).trans (bigStepLoop_processes f w w.state a w2 hb)

lemma mem_schedInsert :
    ∀ (sched : Sched) (k : Nat) (ev : Process × Nat) (e : Nat × List (Process × Nat)),
    e ∈ schedInsert sched k ev → e ∈ sched ∨ e.1 = k := by
  intro sched
  induction sched with
  | nil =>
    intro k ev e he
    simp only [schedInsert, List.mem_singleton] at he
    subst he
    exact Or.inr rfl
  | cons hd rest ih =>
    intro k ev e he
    by_cases hk : hd.1 = k
    · rw [show schedInsert (hd :: rest) k ev = (hd.1, hd.2 ++ [ev]) :: rest from by
        rw [show (hd :: rest : Sched) = (hd.1, hd.2) :: rest from by rfl]
        simp [schedInsert, hk]] at he
      rcases List.mem_cons.mp he with rfl | he
      · exact Or.inr hk
      · exact Or.inl (List.mem_cons_of_mem _ he)
    · rw [show schedInsert (hd :: rest) k ev = hd :: schedInsert rest k ev from by
        rw [show (hd :: rest : Sched) = (hd.1, hd.2) :: rest from by rfl]
        simp [schedInsert, hk]] at he
      rcases List.mem_cons.mp he with rfl | he
      · exact Or.inl (List.mem_cons_self _ _)
      · rcases ih k ev e he with h | h
        · exact Or.inl (List.mem_cons_of_mem _ h)
        · exact Or.inr h

lemma schedLookup_none_iff (sched : Sched) (k : Nat) :
    schedLookup sched k = none ↔ ∀ e ∈ sched, e.1 ≠ k := by
  induction sched with
  | nil => simp [schedLookup]
  | cons hd rest ih =>
    rw [show (hd :: rest : Sched) = (hd.1, hd.2) :: rest from by rfl]
    by_cases hk : hd.1 = k
    · simp [schedLookup, hk]
    · simp [schedLookup, hk, ih]

lemma foldl_scheduleStep_keys (t : Nat) (stream : Nat → Nat)
    (hstream : ∀ n, 0 < stream n) (hist : List State) :
    ∀ (ps : List Process),
    (∀ p ∈ ps, ∀ d, p.delay_distribution = DelayDist.constant d → 0 < d) →
    ∀ (acc : Sched × Nat), (∀ e ∈ acc.1, t + 1 ≤ e.1) →
    ∀ e ∈ (ps.foldl (scheduleStep t stream hist) acc).1, t + 1 ≤ e.1 := by
  intro ps
  induction ps with
  | nil => intro _ acc hacc e he; exact hacc e he
  | cons p rest ih =>
    intro hconst acc hacc
    rw [List.foldl_cons]
    refine ih (fun p' hp' => hconst p' (List.mem_cons_of_mem _ hp')) _ ?_
    intro e he
    unfold scheduleStep at he
    by_cases hp : p.precondition hist = true
    · rw [if_pos hp] at he
      rcases mem_schedInsert _ _ _ _ he with h | h
      · exact hacc e h
      · rw [h]
        have hpos : 0 < (p.delay_distribution.sample stream acc.2).1 := by
          cases hdd : p.delay_distribution with
          | constant d =>
            exact hconst p (List.mem_cons_self _ _) d hdd
          | gaussian m s =>
            exact hstream acc.2
        omega
    · rw [if_neg hp] at he
      exact hacc e he

lemma runPlan_concat (bf : Nat) :
    ∀ (q : List Act) (w : Env) (a : Act),
    runPlan bf w (q ++ [a]) = (runPlan bf w q).bind (fun w1 => Env.big_step bf w1 a) := by
  intro q
  induction q with
  | nil =>
    intro w a
    simp only [List.nil_append, runPlan, Option.bind_some]
    cases hb : Env.big_step bf w a <;> simp [runPlan, hb]
  | cons b rest ih =>
    intro w a
    simp only [List.cons_append, runPlan]
    cases hb : Env.big_step bf w b <;> simp [hb, ih]

lemma expandAll_sound (bf : Nat) (w : Env) (px : List Act) :
    ∀ (acts : List Act) (ch : List BfsNode), expandAll bf w px acts = some ch →
    ∀ c ∈ ch, ∃ a, a ∈ acts ∧ Env.big_step bf w a = some c.1 ∧ c.2 = px ++ [a] := by
  intro acts
  induction acts with
  | nil =>
    intro ch h c hc
    simp only [expandAll] at h
    obtain rfl : ([] : List BfsNode) = ch := by injection h
    cases hc
  | cons a rest ih =>
    intro ch h c hc
    simp only [expandAll] at h
    cases hb : Env.big_step bf w a with
    | none => rw [hb] at h; cases h
    | some w1 =>
      rw [hb] at h
      cases he : expandAll bf w px rest with
      | none => rw [he] at h; cases h
      | some ch' =>
        rw [he] at h
        obtain rfl : ((w1, px ++ [a]) :: ch') = ch := by injection h
        rcases List.mem_cons.mp hc with rfl | hc'
        · exact ⟨a, List.mem_cons_self _ _, hb, rfl⟩
        · obtain ⟨a', ha', hb', hp'⟩ := ih ch' he c hc'
          exact ⟨a', List.mem_cons_of_mem _ ha', hb', hp'⟩

lemma expandAll_complete (bf : Nat) (w : Env) (px : List Act) :
    ∀ (acts : List Act) (ch : List BfsNode), expandAll bf w px acts = some ch →
    ∀ a ∈ acts, ∃ w1, Env.big_step bf w a = some w1 ∧ (w1, px ++ [a]) ∈ ch := by
  intro acts
  induction acts with
  | nil => intro ch _ a ha; cases ha
  | cons b rest ih =>
    intro ch h a ha
    simp only [expandAll] at h
    cases hb : Env.big_step bf w b with
    | none => rw [hb] at h; cases h
    | some w1 =>
      rw [hb] at h
      cases he : expandAll bf w px rest with
      | none => rw [he] at h; cases h
      | some ch' =>
        rw [he] at h
        obtain rfl : ((w1, px ++ [b]) :: ch') = ch := by injection h
        rcases List.mem_cons.mp ha with rfl | ha'
        · exact ⟨w1, hb, List.mem_cons_self _ _⟩
        · obtain ⟨w2, hb2, hm2⟩ := ih ch' he a ha'
          exact ⟨w2, hb2, List.mem_cons_of_mem _ hm2⟩

lemma twoBlock_head_split {L : Nat} {A B : List BfsNode} {x : BfsNode} {rest : List BfsNode}
    (hQ : x :: rest = A ++ B)
    (hA : ∀ y ∈ A, y.2.length = L) (hB : ∀ y ∈ B, y.2.length = L + 1) :
    ∃ L2 A2 B2, rest = A2 ++ B2
      ∧ (∀ y ∈ A2, y.2.length = L2) ∧ (∀ y ∈ B2, y.2.length = L2 + 1)
      ∧ x.2.length = L2 := by
  cases A with
  | nil =>
    simp only [List.nil_append] at hQ
    refine ⟨L + 1, rest, [], by simp, ?_, by simp, ?_⟩
    · intro y hy
      exact hB y (hQ ▸ List.mem_cons_of_mem _ hy)
    · exact hB x (hQ ▸ List.mem_cons_self _ _)
  | cons a A' =>
    rw [List.cons_append] at hQ
    injection hQ with h1 h2
    subst h1
    subst h2
    exact ⟨L, A', B, rfl, fun y hy => hA y (List.mem_cons_of_mem _ hy), hB,
      hA x (List.mem_cons_self _ _)⟩

lemma bfsLoop_minimal_aux (goal : State → Bool) (bf : Nat) (env0 : Env) :
    ∀ (n : Nat) (Q : List BfsNode) (L : Nat) (A B : List BfsNode) (p : List Act),
    Q = A ++ B →
    (∀ y ∈ A, y.2.length = L) →
    (∀ y ∈ B, y.2.length = L + 1) →
    (∀ y ∈ Q, runPlan bf env0 y.2 = some y.1) →
    (∀ q, (∀ a ∈ q, a ∈ bfs_actions) → reachesGoal goal bf env0 q = true →
      ∃ y ∈ Q, List.IsPrefix y.2 q) →
    bfsLoop goal bf n Q = some (some p) →
    reachesGoal goal bf env0 p = true
      ∧ ∀ q, (∀ a ∈ q, a ∈ bfs_actions) → reachesGoal goal bf env0 q = true →
          p.length ≤ q.length := by
  intro n
  induction n with
  | zero =>
    intro Q L A B p hQ hA hB hrun hcomp hloop
    cases Q with
    | nil => simp [bfsLoop] at hloop
    | cons x rest => simp [bfsLoop] at hloop
  | succ n ih =>
    intro Q L A B p hQ hA hB hrun hcomp hloop
    cases Q with
    | nil => simp [bfsLoop] at hloop
    | cons x rest =>
      obtain ⟨L2, A2, B2, hrest, hA2, hB2, hxlen⟩ := twoBlock_head_split hQ hA hB
      have hrestlen : ∀ y ∈ rest, L2 ≤ y.2.length := by
        intro y hy
        rw [hrest] at hy
        rcases List.mem_append.mp hy with h | h
        · exact (hA2 y h).ge
        · rw [hB2 y h]; omega
      simp only [bfsLoop] at hloop
      by_cases hg : goal x.1.state = true
      · rw [if_pos hg] at hloop
        have hps : some x.2 = some p := by injection hloop
        have hp : x.2 = p := by injection hps
        subst hp
        have hrunx : runPlan bf env0 x.2 = some x.1 := hrun x (List.mem_cons_self _ _)
        constructor
        · unfold reachesGoal
          rw [hrunx]
          exact hg
        · intro q halph hreach
          obtain ⟨y, hyQ, hpre⟩ := hcomp q halph hreach
          have h1 : x.2.length ≤ y.2.length := by
            rcases List.mem_cons.mp hyQ with heq | hyr
            · rw [heq]
            · rw [hxlen]; exact hrestlen y hyr
          exact h1.trans hpre.length_le
      · rw [if_neg hg] at hloop
        cases hexp : expandAll bf x.1 x.2 bfs_actions with
        | none => rw [hexp] at hloop; cases hloop
        | some ch =>
          rw [hexp] at hloop
          have hloop2 : bfsLoop goal bf n (rest ++ ch) = some (some p) := hloop
          have hchlen : ∀ y ∈ ch, y.2.length = L2 + 1 := by
            intro y hy
            obtain ⟨a, _, _, hp2⟩ := expandAll_sound bf x.1 x.2 bfs_actions ch hexp y hy
            rw [hp2, List.length_append, List.length_singleton, hxlen]
          refine ih (rest ++ ch) L2 A2 (B2 ++ ch) p ?_ hA2 ?_ ?_ ?_ hloop2
          · rw [hrest, List.append_assoc]
          · intro y hy
            rcases List.mem_append.mp hy with h | h
            · exact hB2 y h
            · exact hchlen y h
          · intro y hy
            rcases List.mem_append.mp hy with h | h
            · exact hrun y (List.mem_cons_of_mem _ h)
            · obtain ⟨a, _, hb, hp2⟩ := expandAll_sound bf x.1 x.2 bfs_actions ch hexp y h
              rw [hp2, runPlan_concat, hrun x (List.mem_cons_self _ _)]
              exact hb
          · intro q halph hreach
            obtain ⟨y, hyQ, hpre⟩ := hcomp q halph hreach
            rcases List.mem_cons.mp hyQ with heq | hyr
            · subst heq
              have hne : y.2 ≠ q := by
                intro hqeq
                unfold reachesGoal at hreach
                rw [← hqeq, hrun y (List.mem_cons_self _ _)] at hreach
                exact hg hreach
              obtain ⟨tl, htl⟩ := hpre
              cases tl with
              | nil =>
                rw [List.append_nil] at htl
                exact absurd htl hne
              | cons a t2 =>
                have haq : a ∈ q := by
                  rw [← htl]
                  exact List.mem_append_right _ (List.mem_cons_self _ _)
                obtain ⟨w1, _, hmem⟩ :=
                  expandAll_complete bf y.1 y.2 bfs_actions ch hexp a (halph a haq)
                refine ⟨(w1, y.2 ++ [a]), List.mem_append_right _ hmem, ⟨t2, ?_⟩⟩
                rw [List.append_assoc]
                simpa using htl
            · exact ⟨y, List.mem_append_left _ hyr, hpre⟩

/-!  Claim theorems. -/

/-- C1: for every WorldModel and every optional action, `small_step` is
exactly the composition of the five spec phases, in order: (1) apply
the action to the state's named field, (2) apply the scheduled
processes' effects for the current tick in insertion order and delete
the tick's entry, (3) append the resulting state to history, (4) for
every process whose start condition holds on the just-extended history,
sample a delay and insert `(process, t)` under key `t + delay`, (5)
increment `t`. The process list (and with it every process and
distribution) is left untouched. -/
theorem C1_small_step_is_spec_phases :
    ∀ (w : Env) (a : Option FieldVal),
    w.small_step a = SpecPhases.specSmallStep w a
    ∧ (w.small_step a).processes = w.processes
    ∧ (w.small_step a).t = w.t + 1
    ∧ (w.small_step a).history = w.history ++ [(w.small_step a).state] := by
  intro w a
  refine ⟨?_, rfl, rfl, rfl⟩
  unfold Env.small_step SpecPhases.specSmallStep SpecPhases.applyActionPhase
    SpecPhases.fireDuePhase SpecPhases.appendHistoryPhase SpecPhases.scheduleNewPhase
    SpecPhases.incrementPhase
  cases a with
  | none => cases h : schedLookup w.scheduled_events w.t <;> simp [h]
  | some fv => cases h : schedLookup w.scheduled_events w.t <;> simp [h]

/-- C2: the stagnation guard: whenever the state after a `small_step`
performed inside `big_step` equals the reference state and the schedule
table is empty, `big_step` returns that state at once, independently of
how much fuel remains — so the loop cannot run forever once the
schedule is empty and the state has stopped changing. -/
theorem C2_big_step_stagnation_guard
    (n : Nat) (w : Env) (a : Option FieldVal)
    (h1 : (w.small_step a).state = (if a.isSome then (w.small_step a).state else w.state))
    (h2 : (w.small_step a).scheduled_events.isEmpty = true) :
    Env.big_step (n + 1) w a = some (w.small_step a) := by
  unfold Env.big_step Env.bigStepLoop
  rw [if_pos rfl, if_pos ⟨h1, h2⟩]

theorem C2_witness :
    Env.big_step 1 Fixtures.wEmpty none = some (Fixtures.wEmpty.small_step none) :=
  C2_big_step_stagnation_guard 0 Fixtures.wEmpty none (by decide) (by decide)

/-- C3 counterexample: the sustained-trigger
`OverfillPot.condition_at_start` of `water_boiling_processes.py`
returns `True` on two consecutive ticks although its check holds
identically on the last two history entries: with jitter draw 0, a
history whose last 22 entries pass the check triggers, and so does its
extension by one more passing entry. -/
theorem C3_counterexample :
    Processes.overfill_check Fixtures.sFull = true
    ∧ Processes.OverfillPot_condition_at_start 0
        (Fixtures.sTable :: List.replicate 22 Fixtures.sFull) = some true
    ∧ Processes.OverfillPot_condition_at_start 0
        ((Fixtures.sTable :: List.replicate 22 Fixtures.sFull) ++ [Fixtures.sFull])
        = some true := by
  refine ⟨rfl, ?_, ?_⟩ <;> rfl

/-- C3 (amended): every process built on the edge-trigger pattern —
the eight of `water_boiling.py` and the five action processes of
`water_boiling_processes.py` — fires at most once when its check holds
identically on two consecutive history entries: if the check holds on
the last entry of `h` and on the appended entry `s`, the trigger is
false at the extended history. (The sustained-trigger `OverfillPot` of
`water_boiling_processes.py` is excluded; see the counterexample.) -/
theorem C3_edge_trigger_amended :
    ∀ (h : List State) (x s : State), h.getLast? = some x →
    (WaterBoiling.toggleFaucetCheck x = true → WaterBoiling.toggleFaucetCheck s = true →
      WaterBoiling.ToggleFaucet.precondition (h ++ [s]) = false)
    ∧ (WaterBoiling.toggleStoveCheck x = true → WaterBoiling.toggleStoveCheck s = true →
      WaterBoiling.ToggleStove.precondition (h ++ [s]) = false)
    ∧ (WaterBoiling.moveToFaucetCheck x = true → WaterBoiling.moveToFaucetCheck s = true →
      WaterBoiling.MoveToFaucet.precondition (h ++ [s]) = false)
    ∧ (WaterBoiling.moveToStoveCheck x = true → WaterBoiling.moveToStoveCheck s = true →
      WaterBoiling.MoveToStove.precondition (h ++ [s]) = false)
    ∧ (WaterBoiling.fillPotCheck x = true → WaterBoiling.fillPotCheck s = true →
      WaterBoiling.FillPot.precondition (h ++ [s]) = false)
    ∧ (WaterBoiling.overfillPotCheck x = true → WaterBoiling.overfillPotCheck s = true →
      WaterBoiling.OverfillPot.precondition (h ++ [s]) = false)
    ∧ (WaterBoiling.boilCheck x = true → WaterBoiling.boilCheck s = true →
      WaterBoiling.Boil.precondition (h ++ [s]) = false)
    ∧ (WaterBoiling.spillCheck x = true → WaterBoiling.spillCheck s = true →
      WaterBoiling.Spill.precondition (h ++ [s]) = false)
    ∧ (Processes.noopCheck x = true → Processes.noopCheck s = true →
      Processes.Noop.condition_at_start (h ++ [s]) = false)
    ∧ (WaterBoiling.toggleFaucetCheck x = true → WaterBoiling.toggleFaucetCheck s = true →
      Processes.ToggleFaucet.condition_at_start (h ++ [s]) = false)
    ∧ (WaterBoiling.toggleStoveCheck x = true → WaterBoiling.toggleStoveCheck s = true →
      Processes.ToggleStove.condition_at_start (h ++ [s]) = false)
    ∧ (WaterBoiling.moveToFaucetCheck x = true → WaterBoiling.moveToFaucetCheck s = true →
      Processes.MoveToFaucet.condition_at_start (h ++ [s]) = false)
    ∧ (WaterBoiling.moveToStoveCheck x = true → WaterBoiling.moveToStoveCheck s = true →
      Processes.MoveToStove.condition_at_start (h ++ [s]) = false) := by
  intro h x s hl
  exact ⟨edge_once _ h x s hl, edge_once _ h x s hl, edge_once _ h x s hl,
    edge_once _ h x s hl, edge_once _ h x s hl, edge_once _ h x s hl,
    edge_once _ h x s hl, edge_once _ h x s hl, edge_once _ h x s hl,
    edge_once _ h x s hl, edge_once _ h x s hl, edge_once _ h x s hl,
    edge_once _ h x s hl⟩

theorem C3_witness :
    WaterBoiling.ToggleFaucet.precondition ([Fixtures.sTf] ++ [Fixtures.sTf]) = false :=
  (C3_edge_trigger_amended [Fixtures.sTf] Fixtures.sTf Fixtures.sTf rfl).1
    (by decide) (by decide)

/-- C4: continuity re-validation is a semantic no-op, not an error: the
effect of each `water_boiling.py` process with a continuity condition
(`FillPot`, `OverfillPot`, `Boil`) returns the state unchanged whenever
some state of the history slice fails the condition; `FillPot` in
particular sets `pot_filled := true` exactly when every state of the
slice has the pot under the running faucet. -/
theorem C4_continuity_revalidation_noop :
    ∀ (s : State) (slice : List State),
    ((∃ x ∈ slice, WaterBoiling.fillPotOverall x = false) →
      WaterBoiling.FillPot.effect s slice = s)
    ∧ ((∀ x ∈ slice, WaterBoiling.fillPotOverall x = true) →
      WaterBoiling.FillPot.effect s slice = { s with pot_filled := true })
    ∧ ((∃ x ∈ slice, WaterBoiling.overfillPotOverall x = false) →
      WaterBoiling.OverfillPot.effect s slice = s)
    ∧ ((∃ x ∈ slice, WaterBoiling.boilCheck x = false) →
      WaterBoiling.Boil.effect s slice = s) := by
  intro s slice
  refine ⟨?_, ?_, ?_, ?_⟩
  · rintro ⟨x, hx, hfx⟩
    show (if slice.all WaterBoiling.fillPotOverall then _ else s) = s
    rw [if_neg]
    intro hall
    rw [List.all_eq_true] at hall
    have := hall x hx
    rw [hfx] at this
    cases this
  · intro hall
    show (if slice.all WaterBoiling.fillPotOverall then _ else s) = _
    rw [if_pos (List.all_eq_true.mpr hall)]
  · rintro ⟨x, hx, hfx⟩
    show (if slice.all WaterBoiling.overfillPotOverall then _ else s) = s
    rw [if_neg]
    intro hall
    rw [List.all_eq_true] at hall
    have := hall x hx
    rw [hfx] at this
    cases this
  · rintro ⟨x, hx, hfx⟩
    show (if slice.all WaterBoiling.boilCheck then _ else s) = s
    rw [if_neg]
    intro hall
    rw [List.all_eq_true] at hall
    have := hall x hx
    rw [hfx] at this
    cases this

theorem C4_witness :
    WaterBoiling.FillPot.effect Fixtures.sTable [Fixtures.sStove] = Fixtures.sTable :=
  (C4_continuity_revalidation_noop Fixtures.sTable [Fixtures.sStove]).1
    ⟨Fixtures.sStove, by decide, by decide⟩

/-- C5 counterexample: `big_step` can return a state equal to its
pre-call state although the schedule table was *not* empty at call
time. First part: a pending `FillPot` effect whose continuity fails is
consumed as a no-op, after which the stagnation guard returns the
unchanged state (schedule had one pending entry at call time). Second
part: with an action whose causal chain merely clears the `action`
field (`Noop`), `big_step` returns the pre-call state while an
unrelated event is *still pending even at return time*. -/
theorem C5_counterexample :
    ((Env.big_step 5 Fixtures.cxFill none).map (fun e => e.state)
        = some Fixtures.cxFill.state
      ∧ Fixtures.cxFill.scheduled_events.length = 1)
    ∧ ((Env.big_step 30 Fixtures.cyNoop
          (some (FieldVal.action (some "noop")))).map (fun e => e.state)
        = some Fixtures.cyNoop.state
      ∧ (Env.big_step 30 Fixtures.cyNoop
          (some (FieldVal.action (some "noop")))).map (fun e => e.scheduled_events.length)
        = some 1
      ∧ Fixtures.cyNoop.scheduled_events.length = 1) := by
  refine ⟨⟨?_, rfl⟩, ?_, ?_, rfl⟩ <;> rfl

/-- C5 (amended): when `big_step` is called with no action, it returns a
state equal to its pre-call state only through the stagnation guard, so
only with the schedule table empty at return time; the table may have
been non-empty at call time (pending no-op effects), and with an action
supplied even the return-time table may be non-empty. -/
theorem C5_unchanged_return_amended :
    ∀ (fuel : Nat) (w : Env) (w1 : Env),
    Env.big_step fuel w none = some w1 → w1.state = w.state →
    w1.scheduled_events = [] := by
  intro fuel w w1 h hs
  exact bigStepLoop_none_unchanged fuel w w.state w1 h hs

theorem C5_witness :
    (Fixtures.wEmpty.small_step none).scheduled_events = [] :=
  C5_unchanged_return_amended 1 Fixtures.wEmpty (Fixtures.wEmpty.small_step none)
    rfl (by decide)

/-- C6: BFS optimality. Whenever `bfs_planner` returns a plan, the plan
reaches a goal-satisfying state and its length (number of big-step
actions, waits included) is minimal among all action sequences over the
planner's action set that reach a goal-satisfying state. -/
theorem C6_bfs_optimal :
    ∀ (goal : State → Bool) (bf fuel : Nat) (env0 : Env) (p : List Act),
    bfs_planner goal bf fuel env0 = some (some p) →
    reachesGoal goal bf env0 p = true
    ∧ ∀ q, (∀ a ∈ q, a ∈ bfs_actions) → reachesGoal goal bf env0 q = true →
        p.length ≤ q.length := by
  intro goal bf fuel env0 p h
  refine bfsLoop_minimal_aux goal bf env0 fuel [(env0, [])] 0 [(env0, [])] [] p
    (by simp) ?_ (by simp) ?_ ?_ h
  · intro y hy
    rw [List.mem_singleton.mp hy]
    rfl
  · intro y hy
    rw [List.mem_singleton.mp hy]
    rfl
  · intro q _ _
    exact ⟨(env0, []), List.mem_singleton_self _, List.nil_prefix⟩

theorem C6_witness :
    reachesGoal Fixtures.goalTrue 1 Fixtures.wEmpty [] = true :=
  (C6_bfs_optimal Fixtures.goalTrue 1 1 Fixtures.wEmpty [] rfl).1

/-- C7 counterexample: `bfs_planner` offers every action of its fixed
list as an expansion of every node, even one whose process's start
condition fails on the hypothetically modified history: at `envMv`
(whose last two history entries both carry the lingering action value
`move_to_faucet`), both the engine-side `MoveToFaucet.precondition`
and the planner-side `condition_at_start` reject the hypothetical
`move_to_faucet` action — `get_possible_actions` omits it — yet the BFS
expansion contains a child labelled with exactly that action. -/
theorem C7_counterexample :
    (("action", "move_to_faucet") ∉ Plan.get_possible_actions Fixtures.envMv.history)
    ∧ Processes.MoveToFaucet.condition_at_start
        (Plan.setLastAction Fixtures.envMv.history "move_to_faucet") = false
    ∧ WaterBoiling.MoveToFaucet.precondition
        (Plan.setLastAction Fixtures.envMv.history "move_to_faucet") = false
    ∧ (expandAll 10 Fixtures.envMv [] bfs_actions).isSome = true
    ∧ ((expandAll 10 Fixtures.envMv [] bfs_actions).getD []).map Prod.snd
        = bfs_actions.map (fun a => [a]) := by
  refine ⟨by decide, rfl, rfl, rfl, rfl⟩

/-- C7 (amended): only the A* planner prunes its expansions:
`get_possible_actions` yields an action exactly when it is in the
candidate list and the corresponding process's `condition_at_start`
holds on a copy of the history whose last entry's `action` field is set
to that action's value. (`bfs_planner` expands its whole action list
unconditionally; see the counterexample.) -/
theorem C7_astar_prunes_amended :
    ∀ (h : List State) (a : String × String),
    a ∈ Plan.get_possible_actions h ↔
      (a ∈ Plan.astar_actions
        ∧ (Plan.action_to_process a.2).condition_at_start
            (Plan.setLastAction h a.2) = true) := by
  intro h a
  unfold Plan.get_possible_actions
  exact List.mem_filter

/-- C8: clone isolation. `deepcopy` is modelled as value copying, so a
clone agrees with the original on state, history, schedule table and
tick, and — the original being a pure value — no sequence of
`small_step`/`big_step` calls applied to the clone can alter it; in
addition, stepping never replaces the shared process list (and hence
never touches any process or distribution object): whatever sequence of
engine calls is applied to the clone, the resulting model still carries
the original's `processes`. -/
theorem C8_clone_isolation :
    ∀ (e : Env) (steps : List StepCall) (c : Env),
    runSteps (clone e) steps = some c →
    (clone e).state = e.state
    ∧ (clone e).history = e.history
    ∧ (clone e).scheduled_events = e.scheduled_events
    ∧ (clone e).t = e.t
    ∧ c.processes = e.processes := by
  intro e steps c h
  exact ⟨rfl, rfl, rfl, rfl, runSteps_processes steps (clone e) c h⟩

theorem C8_witness :
    (Fixtures.wEmpty.small_step none).processes = Fixtures.wEmpty.processes :=
  (C8_clone_isolation Fixtures.wEmpty [StepCall.small none]
    (Fixtures.wEmpty.small_step none) rfl).2.2.2.2

/-- C9: the schedule-table key invariant. A freshly constructed model
has an empty table, and if every delay the model's processes can sample
is strictly positive (all random-stream draws positive, all constant
delays positive), then one `small_step` preserves the invariant that
every key is at or after the current tick — in particular every key of
the stepped model is at or after the incremented tick, and the entry
for the consumed tick is gone from the table in that same step. -/
theorem C9_schedule_key_invariant :
    (∀ (procs : List Process) (s0 : State) (stream : Nat → Nat),
      schedKeysGE (Env.init procs s0 stream))
    ∧ ∀ (w : Env) (a : Option FieldVal),
        (∀ n, 0 < w.rand n) →
        (∀ p ∈ w.processes, ∀ d, p.delay_distribution = DelayDist.constant d → 0 < d) →
        schedKeysGE w →
        schedKeysGE (w.small_step a)
        ∧ schedLookup (w.small_step a).scheduled_events w.t = none := by
  constructor
  · intro procs s0 stream e he
    cases he
  · intro w a hstream hconst hinv
    have hbase : ∀ e ∈ (match schedLookup w.scheduled_events w.t with
        | some _ => schedErase w.scheduled_events w.t
        | none => w.scheduled_events), w.t + 1 ≤ e.1 := by
      cases hl : schedLookup w.scheduled_events w.t with
      | some evs =>
        intro e he
        obtain ⟨hmem, hne⟩ := List.mem_filter.mp he
        have h1 : w.t ≤ e.1 := hinv e hmem
        have h2 : e.1 ≠ w.t := by
          intro heq
          rw [heq] at hne
          simp at hne
        omega
      | none =>
        intro e he
        have h1 : w.t ≤ e.1 := hinv e he
        have h2 : e.1 ≠ w.t := (schedLookup_none_iff _ _).mp hl e he
        omega
    have hkeys : ∀ e ∈ (w.small_step a).scheduled_events, w.t + 1 ≤ e.1 := by
      intro e he
      exact foldl_scheduleStep_keys w.t w.rand hstream _ w.processes hconst _ hbase e he
    refine ⟨?_, ?_⟩
    · intro e he
      exact hkeys e he
    · refine (schedLookup_none_iff _ _).mpr ?_
      intro e he
      have := hkeys e he
      omega

theorem C9_witness :
    schedLookup (Fixtures.cxFill.small_step none).scheduled_events Fixtures.cxFill.t
      = none := by
  refine (C9_schedule_key_invariant.2 Fixtures.cxFill none
    (fun n => Nat.one_pos) ?_ ?_).2
  · intro p hp d hd
    rw [List.mem_singleton.mp hp] at hd
    cases hd
  · intro e he
    rw [List.mem_singleton.mp he]
    exact le_refl 1

/-- C10: `OverfillPot.condition_at_start` of
`water_boiling_processes.py` is partial: it raises (modelled as `none`)
exactly on the histories whose entries all pass its check — the
reversed boolean list then contains no `False` for `list.index` to
find — and returns a boolean whenever at least one entry fails the
check. -/
theorem C10_overfill_partiality :
    ∀ (j : Nat) (h : List State),
    ((∀ s ∈ h, Processes.overfill_check s = true) →
      Processes.OverfillPot_condition_at_start j h = none)
    ∧ ((∃ s ∈ h, Processes.overfill_check s = false) →
      ∃ b, Processes.OverfillPot_condition_at_start j h = some b) := by
  intro j h
  constructor
  · intro hall
    unfold Processes.OverfillPot_condition_at_start
    have hnone : Processes.listIndexFalse (h.reverse.map Processes.overfill_check) = none := by
      refine (listIndexFalse_eq_none_iff _).mpr ?_
      intro b hb
      obtain ⟨s, hs, rfl⟩ := List.mem_map.mp hb
      exact hall s (List.mem_reverse.mp hs)
    rw [hnone]
  · rintro ⟨s, hs, hfalse⟩
    unfold Processes.OverfillPot_condition_at_start
    cases hidx : Processes.listIndexFalse (h.reverse.map Processes.overfill_check) with
    | none =>
      exfalso
      have := (listIndexFalse_eq_none_iff _).mp hidx
        (Processes.overfill_check s)
        (List.mem_map_of_mem _ (List.mem_reverse.mpr hs))
      rw [hfalse] at this
      cases this
    | some i => exact ⟨_, rfl⟩

theorem C10_witness :
    Processes.OverfillPot_condition_at_start 0 [Fixtures.sFull] = none :=
  (C10_overfill_partiality 0 [Fixtures.sFull]).1 (by decide)
